import Mathlib

/-
Verification of the Scrapy crawl scheduler (src/scrapy/core/scheduler/schedulers.py).

The scheduler composes:
  - a Pending Domain Set (`pending_domains`, a Python set, modelled as a
    duplicate-free list maintained by the code's own membership guard),
  - a Domain Order Queue (`domains_queue`, a PriorityQueue of domains),
  - an Open Domain Map (`pending_requests`, a Python dict from domain to a
    per-domain priority container, modelled as an association list),
plus a construction-time boolean `dfo` selecting the per-domain queue
discipline.

The priority containers (`scrapy.utils.datatypes.PriorityQueue` /
`PriorityStack`) and the Twisted `Deferred` resolution performed by the
engine are not part of the scheduler module; they are modelled from the
spec where noted.
-/

namespace Scrapy

/-- A crawl target identity; opaque, only equality is used. -/
abbrev Domain := Nat

/-- A unit of work carrying an integer priority, as in the source where
`request.priority` keys the per-domain push. -/
structure Request where
  rid : Nat
  priority : Int
deriving DecidableEq, Repr

/-- Tie-break discipline of a priority container: breadth-first
(first-in-first-out among equal priorities) or depth-first
(last-in-first-out among equal priorities). -/
inductive Discipline where
  | bfo
  | dfo
deriving DecidableEq, Repr

/-- Modelled from the spec: the Priority Container contract of
`scrapy.utils.datatypes.PriorityQueue` / `PriorityStack`, whose
implementation is not under src/. Items are kept in insertion order
together with their integer priority; the discipline field selects the
tie-break policy on pop. -/
structure PriorityContainer (α : Type) where
  discipline : Discipline
  items : List (α × Int)
deriving DecidableEq

/-- Modelled from the spec: `push(item, priority)` inserts an item. -/
def PriorityContainer.push {α : Type} (c : PriorityContainer α) (x : α) (p : Int) :
    PriorityContainer α :=
  { c with items := c.items ++ [(x, p)] }

/-- Modelled from the spec: index and entry of the item `pop` returns.
Highest priority value wins; among equal priorities the breadth-first
variant keeps the earliest-pushed item and the depth-first variant keeps
the most recently pushed one. -/
def pickBest {α : Type} (d : Discipline) : List (α × Int) → Option (Nat × α × Int)
  | [] => none
  | (x, p) :: rest =>
    match pickBest d rest with
    | none => some (0, x, p)
    | some (i, y, q) =>
      match d with
      | .bfo => if p < q then some (i + 1, y, q) else some (0, x, p)
      | .dfo => if p ≤ q then some (i + 1, y, q) else some (0, x, p)

/-- Modelled from the spec: `pop() -> (item, priority)`, failing with an
Empty condition (here `none`) when no items remain. -/
def PriorityContainer.pop {α : Type} (c : PriorityContainer α) :
    Option ((α × Int) × PriorityContainer α) :=
  match pickBest c.discipline c.items with
  | none => none
  | some (i, x, p) => some ((x, p), ⟨c.discipline, c.items.eraseIdx i⟩)

/-- Members of a priority container, without their priorities. -/
def PriorityContainer.memberList {α : Type} (c : PriorityContainer α) : List α :=
  c.items.map Prod.fst

/-- The Python exceptions that can escape a scheduler method. -/
inductive PyErr where
  | keyError
  | indexError
deriving DecidableEq, Repr

/-- Lookup in a Python dict modelled as an association list
(`self.pending_requests[domain]`). -/
def lookupD {α : Type} : List (Domain × α) → Domain → Option α
  | [], _ => none
  | (k, v) :: rest, d => if k = d then some v else lookupD rest d

/-- Assignment in a Python dict modelled as an association list
(`self.pending_requests[domain] = q`): replaces in place, else appends. -/
def insertD {α : Type} : List (Domain × α) → Domain → α → List (Domain × α)
  | [], d, v => [(d, v)]
  | (k, w) :: rest, d, v =>
    if k = d then (d, v) :: rest else (k, w) :: insertD rest d v

/-- `dict.pop(domain, None)` modelled on an association list: removes the
entry for the key if present. -/
def eraseD {α : Type} : List (Domain × α) → Domain → List (Domain × α)
  | [], _ => []
  | (k, w) :: rest, d => if k = d then rest else (k, w) :: eraseD rest d

/-- The scheduler state: the four fields assigned in
`Scheduler.__init__` (src/scrapy/core/scheduler/schedulers.py:18-22).
Per-domain queue entries pair the request with the identifier of the
Deferred created for it at enqueue time. -/
structure Scheduler where
  pending_domains : List Domain
  domains_queue : PriorityContainer Domain
  pending_requests : List (Domain × PriorityContainer (Request × Nat))
  dfo : Bool
deriving DecidableEq

/-- `Scheduler.__init__`: empty set, empty breadth-first domain queue,
empty dict; `dfo` abstracts the settings lookup
`settings['SCHEDULER_ORDER'].upper() == 'DFO'`. -/
def Scheduler.init (dfo : Bool) : Scheduler :=
  { pending_domains := []
    domains_queue := ⟨.bfo, []⟩
    pending_requests := []
    dfo := dfo }

/-- `Scheduler.domain_is_open`: `domain in self.pending_requests`. -/
def Scheduler.domain_is_open (s : Scheduler) (d : Domain) : Bool :=
  (lookupD s.pending_requests d).isSome

/-- `Scheduler.domain_is_pending`: `domain in self.pending_domains`. -/
def Scheduler.domain_is_pending (s : Scheduler) (d : Domain) : Bool :=
  s.pending_domains.contains d

/-- `Scheduler.domain_has_pending_requests`: returns
`bool(self.pending_requests[domain])` when the domain is open, and falls
off the end (Python `None`, here `none`) otherwise. -/
def Scheduler.domain_has_pending_requests (s : Scheduler) (d : Domain) : Option Bool :=
  match lookupD s.pending_requests d with
  | some q => some (!q.items.isEmpty)
  | none => none

/-- `Scheduler.next_domain`: when the pending set is non-empty, pops the
domain queue and removes the popped domain from the set. A pop on an
empty queue raises the Empty condition; `set.remove` of an absent domain
raises `KeyError` after the queue was already popped. -/
def Scheduler.next_domain (s : Scheduler) : Except PyErr (Option Domain) × Scheduler :=
  if s.pending_domains.isEmpty then (.ok none, s)
  else
    match s.domains_queue.pop with
    | none => (.error .indexError, s)
    | some ((d, _), q) =>
      if d ∈ s.pending_domains then
        (.ok (some d),
          { s with domains_queue := q, pending_domains := s.pending_domains.erase d })
      else (.error .keyError, { s with domains_queue := q })

/-- `Scheduler.add_domain`: when the domain is not pending, pushes it
onto the domain queue at the given priority and adds it to the pending
set; otherwise does nothing. -/
def Scheduler.add_domain (s : Scheduler) (d : Domain) (p : Int) : Scheduler :=
  if d ∈ s.pending_domains then s
  else
    { s with
      domains_queue := s.domains_queue.push d p
      pending_domains := s.pending_domains ++ [d] }

/-- `Scheduler.open_domain`: installs a fresh priority container for the
domain, a stack when `self.dfo` else a queue
(`Priority = PriorityStack if self.dfo else PriorityQueue`). -/
def Scheduler.open_domain (s : Scheduler) (d : Domain) : Scheduler :=
  { s with
    pending_requests :=
      insertD s.pending_requests d ⟨if s.dfo then .dfo else .bfo, []⟩ }

/-- `Scheduler.enqueue_request`: creates a Deferred (its identifier `h`
is supplied by the caller), pushes `(request, dfd)` into the domain's
queue at `request.priority` and returns the Deferred. The dict lookup
raises `KeyError` when the domain is not open, before any mutation. -/
def Scheduler.enqueue_request (s : Scheduler) (d : Domain) (r : Request) (h : Nat) :
    Except PyErr Nat × Scheduler :=
  match lookupD s.pending_requests d with
  | none => (.error .keyError, s)
  | some q =>
    (.ok h,
      { s with pending_requests := insertD s.pending_requests d (q.push (r, h) r.priority) })

/-- `Scheduler.next_request`: pops the domain's queue and returns the
stored `(request, deferred)` pair; both the `KeyError` of the dict lookup
and the Empty condition of the pop are caught and turned into the
`(None, None)` sentinel, here `none`. -/
def Scheduler.next_request (s : Scheduler) (d : Domain) :
    Option (Request × Nat) × Scheduler :=
  match lookupD s.pending_requests d with
  | none => (none, s)
  | some q =>
    match q.pop with
    | none => (none, s)
    | some ((x, _), q') =>
      (some x, { s with pending_requests := insertD s.pending_requests d q' })

/-- `Scheduler.close_domain`: `self.pending_requests.pop(domain, None)`. -/
def Scheduler.close_domain (s : Scheduler) (d : Domain) : Scheduler :=
  { s with pending_requests := eraseD s.pending_requests d }

/-- `Scheduler.remove_pending_domain`: when the domain is pending and not
open, executes `return self.pending_domains.remove(domain)` — Python
`set.remove` mutates the set and returns `None` — and otherwise falls off
the end, returning `None`. -/
def Scheduler.remove_pending_domain (s : Scheduler) (d : Domain) :
    Option Int × Scheduler :=
  if d ∈ s.pending_domains ∧ ¬ s.domain_is_open d then
    (none, { s with pending_domains := s.pending_domains.erase d })
  else (none, s)

/-- `Scheduler.is_idle`: `not self.pending_requests` — the truthiness of
the dict, i.e. whether the Open Domain Map is empty. -/
def Scheduler.is_idle (s : Scheduler) : Bool :=
  s.pending_requests.isEmpty

/-- Python truthiness of an `int | None` style optional boolean result:
`None` is falsy. -/
def truthy : Option Bool → Bool
  | none => false
  | some b => b

/-- The scheduler's public operations, used to quantify over call
sequences. -/
inductive Op where
  | addDomain (d : Domain) (p : Int)
  | nextDomain
  | openDomain (d : Domain)
  | enqueueRequest (d : Domain) (r : Request)
  | nextRequest (d : Domain)
  | closeDomain (d : Domain)
  | removePendingDomain (d : Domain)
deriving DecidableEq, Repr

/-- A scheduler together with the surrounding Deferred bookkeeping:
`next_handle` numbers the Deferreds created by `enqueue_request`, and
`resolutions` records, in order, the Deferred identifiers fired so far. -/
structure World where
  sched : Scheduler
  next_handle : Nat
  resolutions : List Nat
deriving DecidableEq

/-- A fresh world around a fresh scheduler. -/
def World.init (dfo : Bool) : World :=
  { sched := Scheduler.init dfo, next_handle := 0, resolutions := [] }

/-- One scheduler call. `enqueueRequest` always allocates a fresh
Deferred identifier, as `defer.Deferred()` runs before the dict lookup.
Modelled from the spec for `nextRequest`: the engine, which is not under
src/, resolves the returned Deferred when `next_request` hands the pair
back, so a successful pop appends the popped handle to `resolutions`. -/
def World.step (w : World) : Op → World
  | .addDomain d p => { w with sched := w.sched.add_domain d p }
  | .nextDomain => { w with sched := (w.sched.next_domain).2 }
  | .openDomain d => { w with sched := w.sched.open_domain d }
  | .enqueueRequest d r =>
    { w with
      sched := (w.sched.enqueue_request d r w.next_handle).2
      next_handle := w.next_handle + 1 }
  | .nextRequest d =>
    match w.sched.next_request d with
    | (some (_, h), s') => { w with sched := s', resolutions := w.resolutions ++ [h] }
    | (none, s') => { w with sched := s' }
  | .closeDomain d => { w with sched := w.sched.close_domain d }
  | .removePendingDomain d => { w with sched := (w.sched.remove_pending_domain d).2 }

/-- Run a sequence of scheduler calls from a world. -/
def World.run (w : World) (ops : List Op) : World :=
  ops.foldl World.step w

/-- The Deferred identifiers stored in one per-domain queue. -/
def qHandles (q : PriorityContainer (Request × Nat)) : List Nat :=
  q.items.map (fun e => e.1.2)

/-- The Deferred identifiers currently stored in the per-domain queues of
the Open Domain Map. -/
def handlesOfMap : List (Domain × PriorityContainer (Request × Nat)) → List Nat
  | [] => []
  | (_, q) :: rest => qHandles q ++ handlesOfMap rest

/-! ### Association-list lemmas -/

theorem lookupD_insertD_self {α : Type} (m : List (Domain × α)) (d : Domain) (v : α) :
    lookupD (insertD m d v) d = some v := by
  induction m with
  | nil => simp [insertD, lookupD]
  | cons kv rest ih =>
    obtain ⟨k, w⟩ := kv
    by_cases hk : k = d
    · simp [insertD, lookupD, hk]
    · simp [insertD, lookupD, hk, ih]

theorem lookupD_insertD_ne {α : Type} (m : List (Domain × α)) (d k : Domain) (v : α)
    (h : k ≠ d) : lookupD (insertD m d v) k = lookupD m k := by
  induction m with
  | nil =>
    simp only [insertD, lookupD]
    rw [if_neg (fun h' => h h'.symm)]
  | cons kv rest ih =>
    obtain ⟨k', w⟩ := kv
    by_cases hk : k' = d
    · subst hk
      simp only [insertD, if_pos rfl, lookupD]
      rw [if_neg (fun h' => h h'.symm), if_neg (fun h' => h h'.symm)]
    · simp only [insertD, if_neg hk, lookupD]
      by_cases hk2 : k' = k
      · simp [hk2]
      · simp [hk2, ih]

theorem eraseD_of_lookup_none {α : Type} (m : List (Domain × α)) (d : Domain)
    (h : lookupD m d = none) : eraseD m d = m := by
  induction m with
  | nil => simp [eraseD]
  | cons kv rest ih =>
    obtain ⟨k, w⟩ := kv
    by_cases hk : k = d
    · simp [lookupD, hk] at h
    · simp only [lookupD, if_neg hk] at h
      simp [eraseD, hk, ih h]

theorem lookupD_eq_none_of_not_mem {α : Type} (m : List (Domain × α)) (d : Domain)
    (h : d ∉ m.map Prod.fst) : lookupD m d = none := by
  induction m with
  | nil => simp [lookupD]
  | cons kv rest ih =>
    obtain ⟨k, w⟩ := kv
    simp only [List.map_cons, List.mem_cons] at h
    push_neg at h
    simp only [lookupD]
    rw [if_neg (fun h' : k = d => h.1 h'.symm)]
    exact ih h.2

theorem lookupD_eraseD_self {α : Type} (m : List (Domain × α)) (d : Domain)
    (hN : (m.map Prod.fst).Nodup) : lookupD (eraseD m d) d = none := by
  induction m with
  | nil => simp [eraseD, lookupD]
  | cons kv rest ih =>
    obtain ⟨k, w⟩ := kv
    simp only [List.map_cons, List.nodup_cons] at hN
    by_cases hk : k = d
    · subst hk
      simp only [eraseD, if_pos rfl]
      exact lookupD_eq_none_of_not_mem rest k hN.1
    · simp [eraseD, lookupD, hk, ih hN.2]

theorem keys_insertD {α : Type} (m : List (Domain × α)) (d : Domain) (v : α) :
    (insertD m d v).map Prod.fst =
      if d ∈ m.map Prod.fst then m.map Prod.fst else m.map Prod.fst ++ [d] := by
  induction m with
  | nil => simp [insertD]
  | cons kv rest ih =>
    obtain ⟨k, w⟩ := kv
    by_cases hk : k = d
    · subst hk
      simp [insertD]
    · have hdk : ¬ d = k := fun h' => hk h'.symm
      simp only [insertD, if_neg hk, List.map_cons]
      rw [ih]
      by_cases hm : d ∈ rest.map Prod.fst
      · rw [if_pos hm, if_pos (by simp [List.mem_cons, hm])]
      · rw [if_neg hm, if_neg (by simp [List.mem_cons, hdk, hm]), List.cons_append]

theorem keys_insertD_nodup {α : Type} (m : List (Domain × α)) (d : Domain) (v : α)
    (hN : (m.map Prod.fst).Nodup) : ((insertD m d v).map Prod.fst).Nodup := by
  rw [keys_insertD]
  split
  · exact hN
  · next h => simp [List.nodup_append, hN, h]

theorem keys_eraseD_sublist {α : Type} (m : List (Domain × α)) (d : Domain) :
    ((eraseD m d).map Prod.fst).Sublist (m.map Prod.fst) := by
  induction m with
  | nil => simp [eraseD]
  | cons kv rest ih =>
    obtain ⟨k, w⟩ := kv
    by_cases hk : k = d
    · simp only [eraseD, if_pos hk, List.map_cons]
      exact (List.Sublist.refl _).cons k
    · simp only [eraseD, if_neg hk, List.map_cons]
      exact ih.cons₂ k

theorem keys_eraseD_nodup {α : Type} (m : List (Domain × α)) (d : Domain)
    (hN : (m.map Prod.fst).Nodup) : ((eraseD m d).map Prod.fst).Nodup :=
  List.Nodup.sublist (keys_eraseD_sublist m d) hN

/-! ### Priority container lemmas -/

theorem pickBest_eq_none_iff {α : Type} (d : Discipline) (l : List (α × Int)) :
    pickBest d l = none ↔ l = [] := by
  cases l with
  | nil => simp [pickBest]
  | cons x xs =>
    obtain ⟨a, p⟩ := x
    simp only [pickBest]
    constructor
    · intro h
      rcases hp : pickBest d xs with _ | ⟨i, y, q⟩ <;> rw [hp] at h
      · simp at h
      · cases d <;> simp at h <;> split at h <;> simp at h
    · intro h
      simp at h

theorem pop_eq_none_iff {α : Type} (c : PriorityContainer α) :
    c.pop = none ↔ c.items = [] := by
  unfold PriorityContainer.pop
  rcases hp : pickBest c.discipline c.items with _ | ⟨i, x, p⟩
  · simpa using (pickBest_eq_none_iff c.discipline c.items).mp hp
  · simp only []
    constructor
    · intro h
      simp at h
    · intro h
      rw [h] at hp
      simp [pickBest] at hp

theorem insertD_ne_nil {α : Type} (m : List (Domain × α)) (d : Domain) (v : α) :
    insertD m d v ≠ [] := by
  cases m with
  | nil => simp [insertD]
  | cons kv rest =>
    obtain ⟨k, w⟩ := kv
    simp only [insertD]
    split <;> simp

theorem pickBest_get {α : Type} (d : Discipline) :
    ∀ (l : List (α × Int)) (i : Nat) (x : α) (p : Int),
      pickBest d l = some (i, x, p) → l[i]? = some (x, p)
  | [], i, x, p, h => by simp [pickBest] at h
  | (a, pa) :: rest, i, x, p, h => by
    simp only [pickBest] at h
    rcases hp : pickBest d rest with _ | ⟨j, y, q⟩ <;> rw [hp] at h
    · rw [Option.some_inj, Prod.mk.injEq, Prod.mk.injEq] at h
      obtain ⟨h1, h2, h3⟩ := h
      subst h1
      subst h2
      subst h3
      simp
    · cases d
      · have hb : (if pa < q then some (j + 1, y, q) else some (0, a, pa)) =
            some (i, x, p) := h
        split at hb <;>
          (rw [Option.some_inj, Prod.mk.injEq, Prod.mk.injEq] at hb
           obtain ⟨h1, h2, h3⟩ := hb
           subst h1
           subst h2
           subst h3)
        · simpa using pickBest_get .bfo rest j y q hp
        · simp
      · have hb : (if pa ≤ q then some (j + 1, y, q) else some (0, a, pa)) =
            some (i, x, p) := h
        split at hb <;>
          (rw [Option.some_inj, Prod.mk.injEq, Prod.mk.injEq] at hb
           obtain ⟨h1, h2, h3⟩ := hb
           subst h1
           subst h2
           subst h3)
        · simpa using pickBest_get .dfo rest j y q hp
        · simp

theorem pop_char {α : Type} (c : PriorityContainer α) (e : α × Int) (q' : PriorityContainer α)
    (h : c.pop = some (e, q')) :
    ∃ i, c.items[i]? = some e ∧
      q'.discipline = c.discipline ∧ q'.items = c.items.eraseIdx i := by
  unfold PriorityContainer.pop at h
  rcases hp : pickBest c.discipline c.items with _ | ⟨i, x, p⟩ <;> rw [hp] at h
  · exact Option.noConfusion h
  · rw [Option.some_inj] at h
    have h1 : (x, p) = e := congrArg Prod.fst h
    have h2 : (⟨c.discipline, c.items.eraseIdx i⟩ : PriorityContainer α) = q' :=
      congrArg Prod.snd h
    refine ⟨i, ?_, ?_, ?_⟩
    · rw [← h1]
      exact pickBest_get c.discipline c.items i x p hp
    · rw [← h2]
    · rw [← h2]

theorem map_eraseIdx_comm {α β : Type} (f : α → β) :
    ∀ (l : List α) (i : Nat), (l.eraseIdx i).map f = (l.map f).eraseIdx i
  | [], _ => by simp
  | _ :: _, 0 => by simp [List.eraseIdx]
  | x :: xs, i + 1 => by
    simp only [List.eraseIdx, List.map_cons]
    rw [map_eraseIdx_comm f xs i]

theorem perm_cons_eraseIdx {α : Type} :
    ∀ (l : List α) (i : Nat) (a : α), l[i]? = some a → l.Perm (a :: l.eraseIdx i)
  | [], i, a, h => by simp at h
  | x :: xs, 0, a, h => by
    simp only [List.getElem?_cons_zero, Option.some_inj] at h
    subst h
    simp [List.eraseIdx]
  | x :: xs, i + 1, a, h => by
    simp only [List.getElem?_cons_succ] at h
    have hrec := perm_cons_eraseIdx xs i a h
    show (x :: xs).Perm (a :: (x :: xs.eraseIdx i))
    exact (hrec.cons x).trans (List.Perm.swap a x (xs.eraseIdx i))

theorem not_mem_eraseIdx_of_nodup {α : Type} :
    ∀ (l : List α) (i : Nat) (a : α), l.Nodup → l[i]? = some a → a ∉ l.eraseIdx i
  | [], i, a, _, h => by simp at h
  | x :: xs, 0, a, hn, h => by
    simp only [List.getElem?_cons_zero, Option.some_inj] at h
    subst h
    simpa [List.eraseIdx] using (List.nodup_cons.mp hn).1
  | x :: xs, i + 1, a, hn, h => by
    simp only [List.getElem?_cons_succ] at h
    have hmem : a ∈ xs := List.getElem?_mem h
    have hx : x ∉ xs := (List.nodup_cons.mp hn).1
    simp only [List.eraseIdx, List.mem_cons]
    rintro (rfl | hmem')
    · exact hx hmem
    · exact not_mem_eraseIdx_of_nodup xs i a (List.nodup_cons.mp hn).2 h hmem'

theorem handles_decomp (m : List (Domain × PriorityContainer (Request × Nat))) (d : Domain)
    (q : PriorityContainer (Request × Nat)) (hq : lookupD m d = some q) :
    ∃ pre post, handlesOfMap m = pre ++ (qHandles q ++ post) ∧
      ∀ q2, handlesOfMap (insertD m d q2) = pre ++ (qHandles q2 ++ post) := by
  induction m with
  | nil => simp [lookupD] at hq
  | cons kv rest ih =>
    obtain ⟨k, w⟩ := kv
    by_cases hk : k = d
    · subst hk
      rw [lookupD, if_pos rfl, Option.some_inj] at hq
      subst hq
      refine ⟨[], handlesOfMap rest, by simp [handlesOfMap], ?_⟩
      intro q2
      simp [insertD, handlesOfMap]
    · rw [lookupD, if_neg hk] at hq
      obtain ⟨pre, post, h1, h2⟩ := ih hq
      refine ⟨qHandles w ++ pre, post, ?_, ?_⟩
      · simp [handlesOfMap, h1, List.append_assoc]
      · intro q2
        simp [insertD, if_neg hk, handlesOfMap, h2 q2, List.append_assoc]

theorem handles_insertD_not_found (m : List (Domain × PriorityContainer (Request × Nat)))
    (d : Domain) (q2 : PriorityContainer (Request × Nat)) (hq : lookupD m d = none) :
    handlesOfMap (insertD m d q2) = handlesOfMap m ++ qHandles q2 := by
  induction m with
  | nil => simp [insertD, handlesOfMap]
  | cons kv rest ih =>
    obtain ⟨k, w⟩ := kv
    by_cases hk : k = d
    · rw [lookupD, if_pos hk] at hq
      exact Option.noConfusion hq
    · rw [lookupD, if_neg hk] at hq
      simp [insertD, if_neg hk, handlesOfMap, ih hq, List.append_assoc]

theorem handles_eraseD_sublist (m : List (Domain × PriorityContainer (Request × Nat)))
    (d : Domain) : (handlesOfMap (eraseD m d)).Sublist (handlesOfMap m) := by
  induction m with
  | nil => simp [eraseD, handlesOfMap]
  | cons kv rest ih =>
    obtain ⟨k, w⟩ := kv
    by_cases hk : k = d
    · simp only [eraseD, if_pos hk, handlesOfMap]
      exact List.sublist_append_right _ _
    · simp only [eraseD, if_neg hk, handlesOfMap]
      exact ih.append_left _

theorem qHandles_push (q : PriorityContainer (Request × Nat)) (x : Request × Nat) (p : Int) :
    qHandles (q.push x p) = qHandles q ++ [x.2] := by
  simp [qHandles, PriorityContainer.push]

theorem add_domain_fields (s : Scheduler) (d : Domain) (p : Int) :
    (s.add_domain d p).pending_requests = s.pending_requests ∧
    (s.add_domain d p).dfo = s.dfo ∧
    (s.add_domain d p).domains_queue.discipline = s.domains_queue.discipline := by
  unfold Scheduler.add_domain
  split
  · exact ⟨rfl, rfl, rfl⟩
  · exact ⟨rfl, rfl, rfl⟩

theorem next_domain_fields (s : Scheduler) :
    ((s.next_domain).2).pending_requests = s.pending_requests ∧
    ((s.next_domain).2).dfo = s.dfo ∧
    ((s.next_domain).2).domains_queue.discipline = s.domains_queue.discipline := by
  by_cases he : s.pending_domains.isEmpty = true
  · have hnd : s.next_domain = (.ok none, s) := by
      unfold Scheduler.next_domain
      rw [if_pos he]
    rw [hnd]
    exact ⟨rfl, rfl, rfl⟩
  · rcases hp : s.domains_queue.pop with _ | ⟨⟨d2, p2⟩, q⟩
    · have hnd : s.next_domain = (.error .indexError, s) := by
        unfold Scheduler.next_domain
        rw [if_neg he, hp]
      rw [hnd]
      exact ⟨rfl, rfl, rfl⟩
    · have hq : q.discipline = s.domains_queue.discipline := by
        obtain ⟨i, hmem, hdisc, hitems⟩ := pop_char s.domains_queue (d2, p2) q hp
        exact hdisc
      by_cases hm : d2 ∈ s.pending_domains
      · have hnd : s.next_domain =
            (.ok (some d2),
              { s with domains_queue := q,
                       pending_domains := s.pending_domains.erase d2 }) := by
          unfold Scheduler.next_domain
          rw [if_neg he, hp]
          simp [hm]
        rw [hnd]
        exact ⟨rfl, rfl, hq⟩
      · have hnd : s.next_domain = (.error .keyError, { s with domains_queue := q }) := by
          unfold Scheduler.next_domain
          rw [if_neg he, hp]
          simp [hm]
        rw [hnd]
        exact ⟨rfl, rfl, hq⟩

theorem remove_pending_fields (s : Scheduler) (d : Domain) :
    ((s.remove_pending_domain d).2).pending_requests = s.pending_requests ∧
    ((s.remove_pending_domain d).2).dfo = s.dfo ∧
    ((s.remove_pending_domain d).2).domains_queue = s.domains_queue := by
  unfold Scheduler.remove_pending_domain
  split
  · exact ⟨rfl, rfl, rfl⟩
  · exact ⟨rfl, rfl, rfl⟩

theorem enqueue_fields (s : Scheduler) (d : Domain) (r : Request) (h : Nat) :
    ((s.enqueue_request d r h).2).dfo = s.dfo ∧
    ((s.enqueue_request d r h).2).domains_queue = s.domains_queue := by
  unfold Scheduler.enqueue_request
  rcases hl : lookupD s.pending_requests d with _ | q
  · exact ⟨rfl, rfl⟩
  · exact ⟨rfl, rfl⟩

theorem next_request_cases (s : Scheduler) (d : Domain) :
    s.next_request d = (none, s) ∨
    ∃ q e q', lookupD s.pending_requests d = some q ∧ q.pop = some (e, q') ∧
      s.next_request d =
        (some e.1, { s with pending_requests := insertD s.pending_requests d q' }) := by
  rcases hl : lookupD s.pending_requests d with _ | q
  · left
    simp only [Scheduler.next_request, hl]
  · rcases hp : q.pop with _ | ⟨⟨x, p⟩, q'⟩
    · left
      simp only [Scheduler.next_request, hl, hp]
    · right
      refine ⟨q, (x, p), q', rfl, hp, ?_⟩
      simp only [Scheduler.next_request, hl, hp]

/-! ### Deferred bookkeeping invariant -/

/-- The global well-formedness of the Deferred bookkeeping: every handle
sitting in a queue or already resolved was allocated, and no handle
occurs twice across the queues and the resolution log together. -/
def World.Inv (w : World) : Prop :=
  (∀ h ∈ handlesOfMap w.sched.pending_requests ++ w.resolutions, h < w.next_handle) ∧
  (handlesOfMap w.sched.pending_requests ++ w.resolutions).Nodup

theorem inv_of_same (w w2 : World)
    (hpr : w2.sched.pending_requests = w.sched.pending_requests)
    (hnh : w2.next_handle = w.next_handle) (hres : w2.resolutions = w.resolutions)
    (hI : w.Inv) : w2.Inv := by
  obtain ⟨hbd, hnd⟩ := hI
  constructor
  · intro h hh
    rw [hpr, hres] at hh
    rw [hnh]
    exact hbd h hh
  · rw [hpr, hres]
    exact hnd

theorem inv_of_sublist (w w2 : World)
    (hs : (handlesOfMap w2.sched.pending_requests).Sublist
      (handlesOfMap w.sched.pending_requests))
    (hnh : w.next_handle ≤ w2.next_handle) (hres : w2.resolutions = w.resolutions)
    (hI : w.Inv) : w2.Inv := by
  obtain ⟨hbd, hnd⟩ := hI
  have hsub : (handlesOfMap w2.sched.pending_requests ++ w2.resolutions).Sublist
      (handlesOfMap w.sched.pending_requests ++ w.resolutions) := by
    rw [hres]
    exact hs.append_right _
  constructor
  · intro h hh
    exact lt_of_lt_of_le (hbd h (hsub.subset hh)) hnh
  · exact List.Nodup.sublist hsub hnd

theorem inv_of_perm (w w2 : World)
    (hp : (handlesOfMap w2.sched.pending_requests ++ w2.resolutions).Perm
      (handlesOfMap w.sched.pending_requests ++ w.resolutions))
    (hnh : w.next_handle ≤ w2.next_handle) (hI : w.Inv) : w2.Inv := by
  obtain ⟨hbd, hnd⟩ := hI
  constructor
  · intro h hh
    exact lt_of_lt_of_le (hbd h (hp.mem_iff.mp hh)) hnh
  · exact hp.nodup_iff.mpr hnd

theorem perm_push_end (pre qh post : List Nat) (a : Nat) :
    (pre ++ ((qh ++ [a]) ++ post)).Perm ((pre ++ (qh ++ post)) ++ [a]) := by
  have h1 : ([a] ++ post).Perm (post ++ [a]) := List.perm_append_comm
  have h2 : (pre ++ (qh ++ ([a] ++ post))).Perm (pre ++ (qh ++ (post ++ [a]))) :=
    (h1.append_left qh).append_left pre
  have e1 : pre ++ ((qh ++ [a]) ++ post) = pre ++ (qh ++ ([a] ++ post)) := by
    rw [List.append_assoc]
  have e2 : pre ++ (qh ++ (post ++ [a])) = (pre ++ (qh ++ post)) ++ [a] := by
    rw [List.append_assoc, List.append_assoc]
  rw [e1, ← e2]
  exact h2

theorem perm_pop_middle (pre qh qh2 post : List Nat) (a : Nat)
    (hq : qh.Perm (a :: qh2)) :
    (pre ++ (qh ++ post)).Perm (a :: (pre ++ (qh2 ++ post))) := by
  have h2 : (pre ++ (qh ++ post)).Perm (pre ++ ((a :: qh2) ++ post)) :=
    (hq.append_right post).append_left pre
  exact h2.trans List.perm_middle

theorem inv_step (w : World) (op : Op) (hI : w.Inv) : (w.step op).Inv := by
  cases op with
  | addDomain d p =>
    exact inv_of_same w _ (add_domain_fields w.sched d p).1 rfl rfl hI
  | nextDomain =>
    exact inv_of_same w _ (next_domain_fields w.sched).1 rfl rfl hI
  | removePendingDomain d =>
    exact inv_of_same w _ (remove_pending_fields w.sched d).1 rfl rfl hI
  | closeDomain d =>
    exact inv_of_sublist w _ (handles_eraseD_sublist w.sched.pending_requests d)
      (le_refl _) rfl hI
  | openDomain d =>
    refine inv_of_sublist w _ ?_ (le_refl _) rfl hI
    show (handlesOfMap (insertD w.sched.pending_requests d _)).Sublist _
    rcases hl : lookupD w.sched.pending_requests d with _ | q0
    · rw [handles_insertD_not_found w.sched.pending_requests d _ hl]
      simp [qHandles]
    · obtain ⟨pre, post, h1, h2⟩ := handles_decomp w.sched.pending_requests d q0 hl
      rw [h2, h1]
      refine List.Sublist.append_left ?_ pre
      exact List.Sublist.append (by simp [qHandles]) (List.Sublist.refl post)
  | enqueueRequest d r =>
    rcases hl : lookupD w.sched.pending_requests d with _ | q
    · have hse : ((w.sched.enqueue_request d r w.next_handle).2) = w.sched := by
        unfold Scheduler.enqueue_request
        rw [hl]
      refine inv_of_sublist w _ ?_ (Nat.le_succ _) rfl hI
      show (handlesOfMap ((w.sched.enqueue_request d r w.next_handle).2).pending_requests).Sublist _
      rw [hse]
    · have hse : ((w.sched.enqueue_request d r w.next_handle).2).pending_requests =
          insertD w.sched.pending_requests d
            (q.push (r, w.next_handle) r.priority) := by
        unfold Scheduler.enqueue_request
        rw [hl]
      obtain ⟨pre, post, h1, h2⟩ := handles_decomp w.sched.pending_requests d q hl
      obtain ⟨hbd, hnd⟩ := hI
      have hperm : (handlesOfMap ((w.step (.enqueueRequest d r)).sched.pending_requests)).Perm
          (handlesOfMap w.sched.pending_requests ++ [w.next_handle]) := by
        show (handlesOfMap ((w.sched.enqueue_request d r w.next_handle).2).pending_requests).Perm _
        rw [hse, h2, h1, qHandles_push]
        exact perm_push_end pre (qHandles q) post w.next_handle
      have hfresh : w.next_handle ∉
          handlesOfMap w.sched.pending_requests ++ w.resolutions := by
        intro hmem
        exact lt_irrefl _ (hbd _ hmem)
      constructor
      · intro h hh
        show h < w.next_handle + 1
        rcases List.mem_append.mp hh with hh1 | hh2
        · rcases List.mem_append.mp (hperm.mem_iff.mp hh1) with hh3 | hh4
          · exact Nat.lt_succ_of_lt (hbd h (List.mem_append.mpr (Or.inl hh3)))
          · rw [List.mem_singleton.mp hh4]
            exact Nat.lt_succ_self _
        · exact Nat.lt_succ_of_lt (hbd h (List.mem_append.mpr (Or.inr hh2)))
      · have hcomb : (handlesOfMap ((w.step (.enqueueRequest d r)).sched.pending_requests) ++
            (w.step (.enqueueRequest d r)).resolutions).Perm
            ((handlesOfMap w.sched.pending_requests ++ w.resolutions) ++ [w.next_handle]) := by
          show (handlesOfMap ((w.sched.enqueue_request d r w.next_handle).2).pending_requests ++
            w.resolutions).Perm _
          have c1 : (handlesOfMap ((w.sched.enqueue_request d r w.next_handle).2).pending_requests ++
              w.resolutions).Perm
              ((handlesOfMap w.sched.pending_requests ++ [w.next_handle]) ++ w.resolutions) :=
            List.Perm.append_right _ hperm
          have c2 : ((handlesOfMap w.sched.pending_requests ++ [w.next_handle]) ++
              w.resolutions).Perm
              ((handlesOfMap w.sched.pending_requests ++ w.resolutions) ++ [w.next_handle]) := by
            rw [List.append_assoc, List.append_assoc]
            exact List.Perm.append_left _ List.perm_append_comm
          exact c1.trans c2
        refine hcomb.nodup_iff.mpr ?_
        rw [List.nodup_append]
        refine ⟨hnd, List.nodup_singleton _, ?_⟩
        intro a ha hb
        rw [List.mem_singleton.mp hb] at ha
        exact hfresh ha
  | nextRequest d =>
    rcases next_request_cases w.sched d with hc | ⟨q, e, q2, hl, hpop, hc⟩
    · have hst : w.step (.nextRequest d) = w := by
        simp only [World.step, hc]
      rw [hst]
      exact hI
    · obtain ⟨⟨r2, hh⟩, pe⟩ := e
      have hst : w.step (.nextRequest d) =
          { w with
            sched := { w.sched with
              pending_requests := insertD w.sched.pending_requests d q2 }
            resolutions := w.resolutions ++ [hh] } := by
        simp only [World.step, hc]
      obtain ⟨i, hgi, hdisc, hitems⟩ := pop_char q ((r2, hh), pe) q2 hpop
      have hq2h : qHandles q2 = (qHandles q).eraseIdx i := by
        rw [qHandles, hitems, map_eraseIdx_comm]
        rfl
      have hqh_i : (qHandles q)[i]? = some hh := by
        rw [qHandles, List.getElem?_map, hgi]
        rfl
      have hqperm : (qHandles q).Perm (hh :: qHandles q2) := by
        rw [hq2h]
        exact perm_cons_eraseIdx (qHandles q) i hh hqh_i
      obtain ⟨pre, post, h1, h2⟩ := handles_decomp w.sched.pending_requests d q hl
      have hAperm : (handlesOfMap w.sched.pending_requests).Perm
          (hh :: handlesOfMap (insertD w.sched.pending_requests d q2)) := by
        rw [h1, h2]
        exact perm_pop_middle pre (qHandles q) (qHandles q2) post hh hqperm
      rw [hst]
      refine inv_of_perm w _ ?_ (le_refl _) hI
      show (handlesOfMap (insertD w.sched.pending_requests d q2) ++
        (w.resolutions ++ [hh])).Perm
        (handlesOfMap w.sched.pending_requests ++ w.resolutions)
      have e1 : handlesOfMap (insertD w.sched.pending_requests d q2) ++
          (w.resolutions ++ [hh]) =
          (handlesOfMap (insertD w.sched.pending_requests d q2) ++ w.resolutions) ++ [hh] :=
        (List.append_assoc _ _ _).symm
      rw [e1]
      have c1 : ((handlesOfMap (insertD w.sched.pending_requests d q2) ++
          w.resolutions) ++ [hh]).Perm
          ([hh] ++ (handlesOfMap (insertD w.sched.pending_requests d q2) ++ w.resolutions)) :=
        List.perm_append_comm
      refine c1.trans ?_
      have c2 : (handlesOfMap w.sched.pending_requests ++ w.resolutions).Perm
          ((hh :: handlesOfMap (insertD w.sched.pending_requests d q2)) ++ w.resolutions) :=
        hAperm.append_right w.resolutions
      exact c2.symm

theorem inv_run (ops : List Op) (w : World) (hI : w.Inv) : (w.run ops).Inv := by
  induction ops generalizing w with
  | nil => exact hI
  | cons op rest ih => exact ih (w.step op) (inv_step w op hI)

theorem inv_init (b : Bool) : (World.init b).Inv := by
  constructor
  · intro h hh
    simp [World.init, Scheduler.init, handlesOfMap] at hh
  · simp [World.init, Scheduler.init, handlesOfMap]

theorem step_preserves_bfo_dfo (w : World) (op : Op) :
    ((w.step op).sched.domains_queue.discipline = w.sched.domains_queue.discipline) ∧
    ((w.step op).sched.dfo = w.sched.dfo) := by
  cases op with
  | addDomain d p =>
    exact ⟨(add_domain_fields w.sched d p).2.2, (add_domain_fields w.sched d p).2.1⟩
  | nextDomain =>
    exact ⟨(next_domain_fields w.sched).2.2, (next_domain_fields w.sched).2.1⟩
  | openDomain d => exact ⟨rfl, rfl⟩
  | enqueueRequest d r =>
    refine ⟨?_, (enqueue_fields w.sched d r w.next_handle).1⟩
    show ((w.sched.enqueue_request d r w.next_handle).2).domains_queue.discipline = _
    rw [(enqueue_fields w.sched d r w.next_handle).2]
  | closeDomain d => exact ⟨rfl, rfl⟩
  | removePendingDomain d =>
    refine ⟨?_, (remove_pending_fields w.sched d).2.1⟩
    show ((w.sched.remove_pending_domain d).2).domains_queue.discipline = _
    rw [(remove_pending_fields w.sched d).2.2]
  | nextRequest d =>
    rcases next_request_cases w.sched d with hc | ⟨q, e, q2, hl, hpop, hc⟩
    · have hst : w.step (.nextRequest d) = w := by
        simp only [World.step, hc]
      rw [hst]
      exact ⟨rfl, rfl⟩
    · obtain ⟨⟨r2, hh⟩, pe⟩ := e
      have hst : w.step (.nextRequest d) =
          { w with
            sched := { w.sched with
              pending_requests := insertD w.sched.pending_requests d q2 }
            resolutions := w.resolutions ++ [hh] } := by
        simp only [World.step, hc]
      rw [hst]
      exact ⟨rfl, rfl⟩

theorem run_preserves_bfo_dfo (ops : List Op) (w : World) :
    ((w.run ops).sched.domains_queue.discipline = w.sched.domains_queue.discipline) ∧
    ((w.run ops).sched.dfo = w.sched.dfo) := by
  induction ops generalizing w with
  | nil => exact ⟨rfl, rfl⟩
  | cons op rest ih =>
    have h1 := step_preserves_bfo_dfo w op
    have h2 := ih (w.step op)
    exact ⟨h2.1.trans h1.1, h2.2.trans h1.2⟩

theorem add_domain_nodup (s : Scheduler) (d : Domain) (p : Int)
    (h : s.pending_domains.Nodup) : (s.add_domain d p).pending_domains.Nodup := by
  unfold Scheduler.add_domain
  split
  · exact h
  · next hd => simp [List.nodup_append, h, hd]

theorem foldl_add_domain_nodup (l : List (Domain × Int)) (s : Scheduler)
    (h : s.pending_domains.Nodup) :
    ((l.foldl (fun t x => t.add_domain x.1 x.2) s).pending_domains).Nodup := by
  induction l generalizing s with
  | nil => exact h
  | cons x xs ih => exact ih _ (add_domain_nodup s x.1 x.2 h)

/-! ### Claims -/

/-- C1: the claim says `remove_pending_domain` on a pending, not-open
domain returns the number of times the domain had been enqueued, an
integer distinguishable from the open-domain `None` sentinel. The code
executes `return self.pending_domains.remove(domain)`, and Python
`set.remove` returns `None`; so on the failing input — a fresh scheduler
after `add_domain(7)`, with 7 pending and not open — the call returns
`None`, not an integer, and indeed every call returns `None` whatever the
state: the integer outcomes promised by the claim (and by the method's
own docstring) are unrealisable. -/
theorem claim_C1_code_bug :
    (((Scheduler.init false).add_domain 7 0).domain_is_pending 7 = true) ∧
    (((Scheduler.init false).add_domain 7 0).domain_is_open 7 = false) ∧
    ((((Scheduler.init false).add_domain 7 0).remove_pending_domain 7).1 = none) ∧
    (∀ (s : Scheduler) (d : Domain), (s.remove_pending_domain d).1 = none) := by
  refine ⟨by decide, by decide, by decide, ?_⟩
  intro s d
  unfold Scheduler.remove_pending_domain
  split <;> rfl

/-- C2: the claim says every operation keeps the Domain Order Queue's
membership equal to the Pending Domain Set, so after a successful
`remove_pending_domain(D)` the domain is in neither. The code removes the
domain only from `pending_domains` and never touches `domains_queue`: on
the failing input (fresh scheduler, `add_domain(7)`,
`remove_pending_domain(7)`) the domain is still a member of the Domain
Order Queue while absent from the Pending Domain Set. -/
theorem claim_C2_code_bug :
    7 ∈ ((((Scheduler.init false).add_domain 7 0).remove_pending_domain 7).2).domains_queue.memberList ∧
    7 ∉ ((((Scheduler.init false).add_domain 7 0).remove_pending_domain 7).2).pending_domains := by
  decide

/-- C5: `add_domain` on an already-pending domain leaves the whole
scheduler state unchanged, whatever priority is passed, and any sequence
of `add_domain` calls keeps the Pending Domain Set duplicate-free. -/
theorem claim_C5 (s : Scheduler) (d : Domain) (p : Int) (l : List (Domain × Int)) :
    (d ∈ s.pending_domains → s.add_domain d p = s) ∧
    (s.pending_domains.Nodup →
      ((l.foldl (fun t x => t.add_domain x.1 x.2) s).pending_domains).Nodup) := by
  constructor
  · intro hd
    unfold Scheduler.add_domain
    rw [if_pos hd]
  · intro h
    exact foldl_add_domain_nodup l s h

/-- Witness for C5 at a concrete state: re-adding pending domain 2 with a
different priority is the identity, and a fold of further `add_domain`
calls keeps the pending set duplicate-free. -/
theorem claim_C5_witness :
    ((((Scheduler.init false).add_domain 2 0).add_domain 2 7 =
        (Scheduler.init false).add_domain 2 0)) ∧
    ((([(1, 0), (1, 3), (2, 5)] : List (Domain × Int)).foldl
        (fun t x => t.add_domain x.1 x.2)
        ((Scheduler.init false).add_domain 2 0)).pending_domains).Nodup :=
  ⟨(claim_C5 ((Scheduler.init false).add_domain 2 0) 2 7 []).1 (by decide),
   (claim_C5 ((Scheduler.init false).add_domain 2 0) 2 7 [(1, 0), (1, 3), (2, 5)]).2
     (by decide)⟩

/-- C6: `enqueue_request` on a domain absent from the Open Domain Map
fails with the `KeyError` of the dict lookup and leaves the scheduler
state unchanged; on an open domain it pushes the pair (request, handle)
into the domain's queue at the request's priority and returns the
handle. -/
theorem claim_C6 (s : Scheduler) (d : Domain) (r : Request) (h : Nat) :
    (s.domain_is_open d = false →
      s.enqueue_request d r h = (.error .keyError, s)) ∧
    (∀ q, lookupD s.pending_requests d = some q →
      s.enqueue_request d r h =
        (.ok h,
          { s with
            pending_requests := insertD s.pending_requests d (q.push (r, h) r.priority) })) := by
  constructor
  · intro ho
    unfold Scheduler.enqueue_request
    rcases hl : lookupD s.pending_requests d with _ | q
    · rfl
    · simp [Scheduler.domain_is_open, hl] at ho
  · intro q hq
    unfold Scheduler.enqueue_request
    rw [hq]

/-- Witness for C6: on a fresh scheduler, domain 0 is not open and the
call fails leaving the state unchanged; after `open_domain 0` the push
lands in domain 0's queue and the handle is returned. -/
theorem claim_C6_witness :
    ((Scheduler.init false).enqueue_request 0 ⟨1, 5⟩ 0 =
      (.error .keyError, Scheduler.init false)) ∧
    (((Scheduler.init false).open_domain 0).enqueue_request 0 ⟨1, 5⟩ 0 =
      (.ok 0,
        { (Scheduler.init false).open_domain 0 with
          pending_requests :=
            insertD ((Scheduler.init false).open_domain 0).pending_requests 0
              (PriorityContainer.push ⟨.bfo, []⟩ (⟨1, 5⟩, 0) 5) })) :=
  ⟨(claim_C6 (Scheduler.init false) 0 ⟨1, 5⟩ 0).1 (by decide),
   (claim_C6 ((Scheduler.init false).open_domain 0) 0 ⟨1, 5⟩ 0).2 ⟨.bfo, []⟩ (by decide)⟩

/-- C4: `next_request` returns the `(None, None)` sentinel (here `none`)
exactly when the domain has no queue or its queue is empty, leaving the
state untouched in both cases, and otherwise returns the popped
(request, handle) pair; the empty-container condition never escapes as a
fault — the function is total on every state. -/
theorem claim_C4 (s : Scheduler) (d : Domain) :
    ((s.next_request d).1 = none ↔
      lookupD s.pending_requests d = none ∨
        ∃ q, lookupD s.pending_requests d = some q ∧ q.items = []) ∧
    ((s.next_request d).1 = none → (s.next_request d).2 = s) ∧
    (∀ q e q', lookupD s.pending_requests d = some q → q.pop = some (e, q') →
      s.next_request d =
        (some e.1, { s with pending_requests := insertD s.pending_requests d q' })) := by
  rcases hl : lookupD s.pending_requests d with _ | q
  · have hnr : s.next_request d = (none, s) := by
      simp only [Scheduler.next_request, hl]
    refine ⟨by simp [hnr], fun _ => by rw [hnr], ?_⟩
    intro q e q' hq hp
    exact absurd hq (by simp)
  · rcases hp : q.pop with _ | ⟨e, q'⟩
    · have hnil : q.items = [] := (pop_eq_none_iff q).mp hp
      have hnr : s.next_request d = (none, s) := by
        simp only [Scheduler.next_request, hl, hp]
      refine ⟨by simp [hnr, hnil], fun _ => by rw [hnr], ?_⟩
      intro q2 e2 q2' hq2 hp2
      rw [Option.some_inj] at hq2
      subst hq2
      rw [hp] at hp2
      exact absurd hp2 (by simp)
    · obtain ⟨x, p⟩ := e
      have hnr : s.next_request d =
          (some x, { s with pending_requests := insertD s.pending_requests d q' }) := by
        simp only [Scheduler.next_request, hl, hp]
      have hne : q.items ≠ [] := by
        intro h0
        have h1 := (pop_eq_none_iff q).mpr h0
        rw [h1] at hp
        exact Option.noConfusion hp
      refine ⟨?_, ?_, ?_⟩
      · simp only [hnr]
        constructor
        · intro h
          simp at h
        · rintro (h | ⟨q2, hq2, hnil⟩)
          · exact absurd h (by simp)
          · rw [Option.some_inj] at hq2
            subst hq2
            exact absurd hnil hne
      · simp only [hnr]
        intro h
        simp at h
      · intro q2 e2 q2' hq2 hp2
        rw [Option.some_inj] at hq2
        subst hq2
        rw [hp, Option.some_inj] at hp2
        have h1 : (x, p) = e2 := congrArg Prod.fst hp2
        have h2 : q' = q2' := congrArg Prod.snd hp2
        subst h2
        rw [hnr, ← h1]

/-- Witness for C4: on a scheduler whose only open domain 3 has an empty
queue the sentinel comes back with the state unchanged, and on a
scheduler whose open domain 0 holds one request the stored pair is
popped. -/
theorem claim_C4_witness :
    ((((Scheduler.init true).open_domain 3).next_request 3).2 =
      (Scheduler.init true).open_domain 3) ∧
    ((((Scheduler.init false).open_domain 0).enqueue_request 0 ⟨1, 5⟩ 0).2.next_request 0 =
      (some (⟨1, 5⟩, 0),
        { (((Scheduler.init false).open_domain 0).enqueue_request 0 ⟨1, 5⟩ 0).2 with
          pending_requests :=
            insertD
              ((((Scheduler.init false).open_domain 0).enqueue_request 0 ⟨1, 5⟩ 0).2).pending_requests
              0 ⟨.bfo, []⟩ })) :=
  ⟨(claim_C4 ((Scheduler.init true).open_domain 3) 3).2.1 (by decide),
   (claim_C4 ((((Scheduler.init false).open_domain 0).enqueue_request 0 ⟨1, 5⟩ 0).2) 0).2.2
     ⟨.bfo, [((⟨1, 5⟩, 0), 5)]⟩ ((⟨1, 5⟩, 0), 5) ⟨.bfo, []⟩ (by decide) (by decide)⟩

/-- C7: `close_domain` removes the domain's entry from the Open Domain
Map when present and is the identity when the domain was never open; and
after `open_domain(D)`, `enqueue_request(D, r)`, `close_domain(D)` a
subsequent `next_request(D)` returns the sentinel with the state
unchanged and `domain_is_open(D)` is false. Stated for states whose Open
Domain Map has duplicate-free keys, which is every state a Python dict
can denote. -/
theorem claim_C7 (s : Scheduler) (d : Domain) (r : Request) (h : Nat)
    (hN : (s.pending_requests.map Prod.fst).Nodup) :
    lookupD (s.close_domain d).pending_requests d = none ∧
    (s.domain_is_open d = false → s.close_domain d = s) ∧
    ((((s.open_domain d).enqueue_request d r h).2.close_domain d).next_request d =
      (none, ((s.open_domain d).enqueue_request d r h).2.close_domain d)) ∧
    ((((s.open_domain d).enqueue_request d r h).2.close_domain d).domain_is_open d = false) := by
  have h1 : lookupD (s.close_domain d).pending_requests d = none :=
    lookupD_eraseD_self s.pending_requests d hN
  have hopen : lookupD (s.open_domain d).pending_requests d =
      some ⟨if s.dfo then .dfo else .bfo, []⟩ :=
    lookupD_insertD_self s.pending_requests d _
  have hN1 : ((s.open_domain d).pending_requests.map Prod.fst).Nodup :=
    keys_insertD_nodup s.pending_requests d _ hN
  have henq : ((s.open_domain d).enqueue_request d r h).2.pending_requests =
      insertD (s.open_domain d).pending_requests d
        (PriorityContainer.push ⟨if s.dfo then .dfo else .bfo, []⟩ (r, h) r.priority) := by
    unfold Scheduler.enqueue_request
    rw [hopen]
  have hN2 : ((((s.open_domain d).enqueue_request d r h).2.pending_requests).map Prod.fst).Nodup := by
    rw [henq]
    exact keys_insertD_nodup _ d _ hN1
  have h3 : lookupD ((((s.open_domain d).enqueue_request d r h).2.close_domain d).pending_requests) d = none := by
    unfold Scheduler.close_domain
    exact lookupD_eraseD_self _ d hN2
  refine ⟨h1, ?_, ?_, ?_⟩
  · intro ho
    have hl : lookupD s.pending_requests d = none := by
      unfold Scheduler.domain_is_open at ho
      rcases hl : lookupD s.pending_requests d with _ | q
      · rfl
      · rw [hl] at ho
        simp at ho
    unfold Scheduler.close_domain
    rw [eraseD_of_lookup_none s.pending_requests d hl]
  · unfold Scheduler.next_request
    rw [h3]
  · unfold Scheduler.domain_is_open
    rw [h3]
    rfl

/-- Witness for C7 at a concrete state: closing domain 0 on a fresh
scheduler leaves no entry for it. -/
theorem claim_C7_witness :
    lookupD ((Scheduler.init false).close_domain 0).pending_requests 0 = none :=
  (claim_C7 (Scheduler.init false) 0 ⟨1, 2⟩ 0 (by decide)).1

/-- C8: `is_idle` is the emptiness of the Open Domain Map alone — it
ignores the Pending Domain Set entirely, holds on a fresh scheduler, is
false immediately after any `open_domain`, and holds again once the last
open domain is closed. -/
theorem claim_C8 (s : Scheduler) (b : Bool) (d : Domain) (pd : List Domain) :
    (s.is_idle = true ↔ s.pending_requests = []) ∧
    (({ s with pending_domains := pd } : Scheduler).is_idle = s.is_idle) ∧
    ((Scheduler.init b).is_idle = true) ∧
    ((s.open_domain d).is_idle = false) ∧
    ((s.pending_requests.map Prod.fst).Nodup →
      (∀ k ∈ s.pending_requests.map Prod.fst, k = d) →
      (s.close_domain d).is_idle = true) := by
  refine ⟨?_, rfl, rfl, ?_, ?_⟩
  · unfold Scheduler.is_idle
    exact List.isEmpty_iff
  · unfold Scheduler.is_idle Scheduler.open_domain
    simp only []
    rcases hi : insertD s.pending_requests d ⟨if s.dfo then .dfo else .bfo, []⟩ with _ | ⟨kv, rest⟩
    · exact absurd hi (insertD_ne_nil _ _ _)
    · rfl
  · intro hN hall
    unfold Scheduler.is_idle Scheduler.close_domain
    rcases hm : s.pending_requests with _ | ⟨⟨k, q⟩, rest⟩
    · simp [eraseD]
    · have hk : k = d := hall k (by rw [hm]; simp)
      subst hk
      simp only [eraseD, if_pos rfl]
      rcases hr : rest with _ | ⟨⟨k2, q2⟩, rest2⟩
      · rfl
      · exfalso
        have hk2 : k2 = k := by
          refine hall k2 ?_
          rw [hm, hr]
          simp
        rw [hm, hr] at hN
        simp [hk2] at hN

/-- Witness for C8 at a concrete state: with domain 4 as the only open
domain, closing it makes the scheduler idle again. -/
theorem claim_C8_witness :
    (((Scheduler.init false).open_domain 4).close_domain 4).is_idle = true :=
  (claim_C8 ((Scheduler.init false).open_domain 4) false 4 []).2.2.2.2 (by decide)
    (by decide)

/-- C10: `domain_has_pending_requests` answers `bool(queue)` — true iff
the domain is open and its queue is non-empty — and when the domain is
not open, control falls off the end of the method and the Python `None`
(a falsy non-boolean, here `none`) comes back instead of `False`. -/
theorem claim_C10 (s : Scheduler) (d : Domain) :
    (s.domain_is_open d = false → s.domain_has_pending_requests d = none) ∧
    (∀ q, lookupD s.pending_requests d = some q →
      s.domain_has_pending_requests d = some (!q.items.isEmpty)) ∧
    (truthy (s.domain_has_pending_requests d) = true ↔
      s.domain_is_open d = true ∧
        ∃ q, lookupD s.pending_requests d = some q ∧ q.items ≠ []) := by
  rcases hl : lookupD s.pending_requests d with _ | q
  · have ho : s.domain_is_open d = false := by
      simp [Scheduler.domain_is_open, hl]
    have hr : s.domain_has_pending_requests d = none := by
      simp only [Scheduler.domain_has_pending_requests, hl]
    refine ⟨fun _ => hr, ?_, ?_⟩
    · intro q hq
      exact absurd hq (by simp)
    · simp [hr, truthy, ho]
  · have ho : s.domain_is_open d = true := by
      simp [Scheduler.domain_is_open, hl]
    have hr : s.domain_has_pending_requests d = some (!q.items.isEmpty) := by
      simp only [Scheduler.domain_has_pending_requests, hl]
    refine ⟨?_, ?_, ?_⟩
    · intro h
      rw [ho] at h
      exact Bool.noConfusion h
    · intro q2 hq2
      rw [Option.some_inj] at hq2
      subst hq2
      exact hr
    · rw [hr, ho]
      simp only [truthy]
      constructor
      · intro h
        refine ⟨by trivial, q, rfl, ?_⟩
        intro h0
        rw [h0] at h
        simp at h
      · rintro ⟨-, q2, hq2, hnil⟩
        rw [Option.some_inj] at hq2
        subst hq2
        simp [hnil]

/-- Witness for C10: on a fresh scheduler domain 5 yields the `None`
fall-through, and right after `open_domain 5` it yields the boolean
emptiness of the fresh queue. -/
theorem claim_C10_witness :
    ((Scheduler.init false).domain_has_pending_requests 5 = none) ∧
    (((Scheduler.init false).open_domain 5).domain_has_pending_requests 5 =
      some (!(PriorityContainer.mk (α := Request × Nat) .bfo []).items.isEmpty)) :=
  ⟨(claim_C10 (Scheduler.init false) 5).1 (by decide),
   (claim_C10 ((Scheduler.init false).open_domain 5) 5).2.1 ⟨.bfo, []⟩ (by decide)⟩


/-- C9: the `dfo` flag fixed at construction survives every operation and
selects the container variant each `open_domain` installs — the
depth-first variant when set, else the breadth-first one — while the
Domain Order Queue stays breadth-first on every reachable state whatever
the flag; and `open_domain` always installs a fresh empty queue for the
domain, replacing any existing entry. -/
theorem claim_C9 (dfo : Bool) (ops : List Op) (s : Scheduler) (d : Domain) :
    (((World.init dfo).run ops).sched.domains_queue.discipline = .bfo) ∧
    (((World.init dfo).run ops).sched.dfo = dfo) ∧
    (lookupD (s.open_domain d).pending_requests d =
      some ⟨if s.dfo then .dfo else .bfo, []⟩) ∧
    ((s.open_domain d).dfo = s.dfo) := by
  have h := run_preserves_bfo_dfo ops (World.init dfo)
  exact ⟨h.1, h.2, lookupD_insertD_self s.pending_requests d _, rfl⟩

/-- C3: every Deferred identifier is resolved at most once over any call
sequence (the resolution log never repeats an identifier), a handle still
sitting in a queue has not been resolved yet, and at the moment
`next_request` dequeues a pair, exactly one resolution — the first for
that handle — is appended to the log. -/
theorem claim_C3 (dfo : Bool) (ops : List Op) :
    (((World.init dfo).run ops).resolutions.Nodup) ∧
    (∀ h ∈ handlesOfMap ((World.init dfo).run ops).sched.pending_requests,
      h ∉ ((World.init dfo).run ops).resolutions) ∧
    (∀ (d : Domain) (r : Request) (hh : Nat) (s' : Scheduler),
      ((World.init dfo).run ops).sched.next_request d = (some (r, hh), s') →
      ((((World.init dfo).run ops).step (.nextRequest d)).resolutions =
        ((World.init dfo).run ops).resolutions ++ [hh]) ∧
      (hh ∉ ((World.init dfo).run ops).resolutions) ∧
      (hh ∈ (((World.init dfo).run ops).step (.nextRequest d)).resolutions)) := by
  have hI : ((World.init dfo).run ops).Inv := inv_run ops (World.init dfo) (inv_init dfo)
  obtain ⟨hbd, hnd⟩ := hI
  obtain ⟨hA, hres, hdisj⟩ := List.nodup_append.mp hnd
  refine ⟨hres, fun h hh => hdisj hh, ?_⟩
  intro d r hh s2 heq
  have hmem : hh ∈ handlesOfMap ((World.init dfo).run ops).sched.pending_requests := by
    rcases next_request_cases ((World.init dfo).run ops).sched d with hc | ⟨q, e, q2, hl, hpop, hc⟩
    · rw [hc] at heq
      exact absurd (congrArg Prod.fst heq) (by simp)
    · rw [hc] at heq
      have he1 : (some e.1 : Option (Request × Nat)) = some (r, hh) := congrArg Prod.fst heq
      rw [Option.some_inj] at he1
      obtain ⟨i, hgi, hdisc, hitems⟩ := pop_char q e q2 hpop
      have hq : hh ∈ qHandles q := by
        have hq0 : e.1.2 ∈ qHandles q := by
          rw [qHandles]
          exact List.mem_map.mpr ⟨e, List.getElem?_mem hgi, rfl⟩
        rw [he1] at hq0
        exact hq0
      obtain ⟨pre, post, h1, h2⟩ :=
        handles_decomp ((World.init dfo).run ops).sched.pending_requests d q hl
      rw [h1]
      exact List.mem_append.mpr (Or.inr (List.mem_append.mpr (Or.inl hq)))
  have hnot : hh ∉ ((World.init dfo).run ops).resolutions := hdisj hmem
  have hstep : (((World.init dfo).run ops).step (.nextRequest d)).resolutions =
      ((World.init dfo).run ops).resolutions ++ [hh] := by
    simp only [World.step, heq]
  refine ⟨hstep, hnot, ?_⟩
  rw [hstep]
  exact List.mem_append.mpr (Or.inr (List.mem_singleton.mpr rfl))

/-- Witness for C3 on a concrete trace: open domain 0, enqueue one
request (Deferred 0); dequeuing it appends exactly the resolution of
Deferred 0, which had not been resolved before. -/
theorem claim_C3_witness :
    ((((World.init false).run [.openDomain 0, .enqueueRequest 0 ⟨1, 5⟩]).sched.next_request 0 =
      (some (⟨1, 5⟩, 0), Scheduler.mk [] ⟨.bfo, []⟩ [(0, ⟨.bfo, []⟩)] false)) ∧
    ((((World.init false).run [.openDomain 0, .enqueueRequest 0 ⟨1, 5⟩]).step
        (.nextRequest 0)).resolutions =
      ((World.init false).run [.openDomain 0, .enqueueRequest 0 ⟨1, 5⟩]).resolutions ++ [0]) ∧
    ((0 : Nat) ∉ ((World.init false).run [.openDomain 0, .enqueueRequest 0 ⟨1, 5⟩]).resolutions)) :=
  ⟨by decide,
   ((claim_C3 false [.openDomain 0, .enqueueRequest 0 ⟨1, 5⟩]).2.2 0 ⟨1, 5⟩ 0
      (Scheduler.mk [] ⟨.bfo, []⟩ [(0, ⟨.bfo, []⟩)] false) (by decide)).1,
   ((claim_C3 false [.openDomain 0, .enqueueRequest 0 ⟨1, 5⟩]).2.2 0 ⟨1, 5⟩ 0
      (Scheduler.mk [] ⟨.bfo, []⟩ [(0, ⟨.bfo, []⟩)] false) (by decide)).2.1⟩

end Scrapy
